import Mathlib

/-!
Verification of the cleaning/deduplication pipeline in `Week_2/merge_dataset.py`.

The pipeline's own code (tokenize-based MinHash deduplication, HTML stripping,
PII redaction, repetitive n-gram collapsing, loading, statistics) is embedded
shallowly below.  External library calls are modelled as follows:

* `nltk.word_tokenize` is modelled by `wordTokenize` (whitespace split with
  bracket/punctuation characters split off as separate tokens), faithful on the
  inputs evaluated here (plain words, phone numbers, the redaction token).
* `datasketch.MinHash` / `MinHashLSH` are modelled from the spec's description
  of MinHash/LSH banding; the `P = 128` permutation hash functions are an
  explicit parameter `h : Nat → String → Nat` (the spec leaves the family
  abstract), and the band decomposition `(b, r)` is taken as configuration, as
  the spec allows.
* `BeautifulSoup(...).get_text(separator=" ")` with `html.parser`
  (which converts character references) followed by `html.unescape` is modelled
  by `getTextL` / `unescapeL`.
* Python `re.sub` with the three PII patterns is modelled by per-pattern
  executable matchers with Python's leftmost, non-overlapping semantics.
* `json.loads` and `langdetect.detect` are parameters (`parse`, `det`), with
  `none` standing for a raised exception.
-/

/-! ## Python-style character classes and whitespace -/

def isPyWs (c : Char) : Bool :=
  c == ' ' || c == '\t' || c == '\n' || c == '\r' || c.toNat == 11 || c.toNat == 12

def isWordChar (c : Char) : Bool :=
  c.isAlphanum || c == '_'

def isSepPunct (c : Char) : Bool :=
  c == '[' || c == ']' || c == '(' || c == ')' || c == ',' || c == ';' || c == '!' || c == '?' || c == '\"'

/-! ## Tokenizer model of `nltk.word_tokenize` -/

def flushTok (acc : List Char) (rest : List String) : List String :=
  if acc.isEmpty then rest else String.mk acc :: rest

def tokAux : List Char → List Char → List String
  | [], acc => flushTok acc []
  | c :: cs, acc =>
    if isPyWs c then flushTok acc (tokAux cs [])
    else if isSepPunct c then flushTok acc (String.mk [c] :: tokAux cs [])
    else tokAux cs (acc ++ [c])

def wordTokenize (s : String) : List String :=
  tokAux s.data []

def lowerTokens (s : String) : List String :=
  tokAux (s.data.map Char.toLower) []

def joinSpaceL : List String → List Char
  | [] => []
  | [t] => t.data
  | t :: ts => t.data ++ ' ' :: joinSpaceL ts

def joinSpace (ts : List String) : String :=
  String.mk (joinSpaceL ts)

/-! ## MinHash and LSH (`get_minhash` and the Step-3 dedup loop)

Modelled from the spec: the signature slot for permutation `i` is the minimum
of `h i` over the document's lowercased token set, with the identity of `min`
(`MAXHASH`, datasketch's `_max_hash`) for the empty set.  The LSH index maps
band contents to previously inserted keys; a query returns every key sharing
at least one band. -/

def MAXHASH : Nat := 2 ^ 32 - 1

def NUMPERM : Nat := 128

/-- The lowercased token *set* (Python `set(word_tokenize(text.lower()))`). -/
def tokenSet (text : String) : List String :=
  (lowerTokens text).dedup

/-- Model of `get_minhash`: per-permutation minimum over the token set. -/
def getMinhash (h : Nat → String → Nat) (text : String) : List Nat :=
  (List.range NUMPERM).map (fun i => (tokenSet text).foldl (fun a t => min a (h i t)) MAXHASH)

/-- Band decomposition of a signature into `b` bands of `r` rows. -/
def bandsOf (b r : Nat) (sig : List Nat) : List (Nat × List Nat) :=
  (List.range b).map (fun i => (i, (sig.drop (i * r)).take r))

/-- The LSH index: entries `(band index, band contents, key)`. -/
abbrev Lsh := List (Nat × List Nat × Nat)

def lshQuery (b r : Nat) (sig : List Nat) (lsh : Lsh) : List Nat :=
  (lsh.filter (fun e => (bandsOf b r sig).any (fun bd => bd.1 == e.1 && bd.2 == e.2.1))).map
    (fun e => e.2.2)

def lshInsert (b r : Nat) (key : Nat) (sig : List Nat) (lsh : Lsh) : Lsh :=
  lsh ++ (bandsOf b r sig).map (fun bd => (bd.1, bd.2, key))

abbrev DState := Lsh × List String

/-- One iteration of the Step-3 loop: drop on a non-empty query, otherwise
insert under the key `doc_{len(deduped)}` (keys modelled as numbers) and keep. -/
def dedupStep (h : Nat → String → Nat) (b r : Nat) (st : DState) (text : String) : DState :=
  let mh := getMinhash h text
  if lshQuery b r mh st.1 = [] then (lshInsert b r st.2.length mh st.1, st.2 ++ [text]) else st

def dedupAux (h : Nat → String → Nat) (b r : Nat) : DState → List String → DState
  | st, [] => st
  | st, d :: ds => dedupAux h b r (dedupStep h b r st d) ds

/-- The deduplicated document sequence produced by the Step-3 loop. -/
def dedupList (h : Nat → String → Nat) (b r : Nat) (docs : List String) : List String :=
  (dedupAux h b r ([], []) docs).2

/-! ## `strip_html` -/

def headMatches : List Char → List Char → Bool
  | [], _ => true
  | _, [] => false
  | a :: as, b :: bs => a == b && headMatches as bs

/-- Character-reference decoding for the references appearing in this
development (named references with semicolon, as both `html.parser` with
`convert_charrefs=True` and `html.unescape` decode them). -/
def entAt (cs : List Char) : Option (Char × List Char) :=
  if headMatches "amp;".data cs then some ('&', cs.drop 4)
  else if headMatches "lt;".data cs then some ('<', cs.drop 3)
  else if headMatches "gt;".data cs then some ('>', cs.drop 3)
  else if headMatches "quot;".data cs then some ('\"', cs.drop 5)
  else if headMatches "#39;".data cs then some ('\'', cs.drop 4)
  else none

def skipTag (cs : List Char) : List Char :=
  (cs.dropWhile (fun c => !(c == '>'))).drop 1

/-- Model of `BeautifulSoup(text, "html.parser").get_text(separator=" ")`:
tags are removed (each contributing a separator), character references are
decoded.  Fuel-driven; callers pass `length + 1`. -/
def getTextL : Nat → List Char → List Char
  | 0, _ => []
  | _ + 1, [] => []
  | f + 1, c :: cs =>
    if c = '<' then ' ' :: getTextL f (skipTag cs)
    else if c = '&' then
      match entAt cs with
      | some p => p.1 :: getTextL f p.2
      | none => '&' :: getTextL f cs
    else c :: getTextL f cs

/-- Model of `html.unescape`. -/
def unescapeL : Nat → List Char → List Char
  | 0, _ => []
  | _ + 1, [] => []
  | f + 1, c :: cs =>
    if c = '&' then
      match entAt cs with
      | some p => p.1 :: unescapeL f p.2
      | none => '&' :: unescapeL f cs
    else c :: unescapeL f cs

/-- Model of `re.sub(r"\s+", " ", clean)`. -/
def collapseAux : Bool → List Char → List Char
  | _, [] => []
  | prevWs, c :: cs =>
    if isPyWs c then
      (if prevWs then collapseAux true cs else ' ' :: collapseAux true cs)
    else c :: collapseAux false cs

def collapseWs (l : List Char) : List Char :=
  collapseAux false l

def dropWs : List Char → List Char
  | [] => []
  | c :: cs => if isPyWs c then dropWs cs else c :: cs

/-- Model of Python `str.strip()`. -/
def pyStripL (l : List Char) : List Char :=
  ((dropWs l).reverse |> dropWs).reverse

def pyStripStr (s : String) : String :=
  String.mk (pyStripL s.data)

/-- Model of `strip_html`: soup text extraction, entity decoding, whitespace
collapsing, then strip. -/
def stripHtml (s : String) : String :=
  let t1 := getTextL (s.data.length + 1) s.data
  let t2 := unescapeL (t1.length + 1) t1
  String.mk (pyStripL (collapseWs t2))

/-! ## `remove_pii`

Executable matchers for the three source patterns, with Python `re.sub`
semantics (leftmost, non-overlapping, later patterns run on redacted text). -/

def redactedL : List Char := "[REDACTED]".data

def cAt (s : List Char) (i : Nat) : Option Char := s.get? i

def wAt (s : List Char) (i : Nat) : Bool :=
  match cAt s i with
  | some c => isWordChar c
  | none => false

/-- Python `\b` at position `i`. -/
def boundaryB (s : List Char) (i : Nat) : Bool :=
  if i = 0 then wAt s 0 else wAt s (i - 1) != wAt s i

def runEnd (s : List Char) (i : Nat) (cls : Char → Bool) : Nat :=
  i + ((s.drop i).takeWhile cls).length

def emailClassB (c : Char) : Bool := isWordChar c || c == '.' || c == '-'

def phoneSepB (c : Char) : Bool := c == '-' || c == '.' || isPyWs c

def cardSepB (c : Char) : Bool := c == ' ' || c == '-'

def sepAtB (s : List Char) (i : Nat) : Bool :=
  match cAt s i with
  | some c => phoneSepB c
  | none => false

def digitsAt (s : List Char) (i k : Nat) : Bool :=
  ((s.drop i).take k).length == k && ((s.drop i).take k).all Char.isDigit

/-- Matcher for `\b[\w\.-]+@[\w\.-]+\.\w+\b` at position `i` (returns the end
position of the match).  The greedy domain run backtracks to the rightmost
dot followed by a word character. -/
def emailMatchAt (s : List Char) (i : Nat) : Option Nat :=
  if boundaryB s i then
    let j := runEnd s i emailClassB
    if i < j ∧ cAt s j = some '@' then
      let k := runEnd s (j + 1) emailClassB
      if j + 1 < k then
        (List.range k).reverse.findSome? (fun d =>
          if j + 2 ≤ d ∧ cAt s d = some '.' ∧ wAt s (d + 1) then
            some (runEnd s (d + 1) isWordChar)
          else none)
      else none
    else none
  else none

/-- One separator-choice attempt for the phone pattern (`a`, `bb` are the
widths taken by the two optional `[-.\s]?` groups). -/
def phoneTry (s : List Char) (i a bb : Nat) : Option Nat :=
  if (a = 0 ∨ sepAtB s (i + 3)) ∧ digitsAt s (i + 3 + a) 3 ∧
      (bb = 0 ∨ sepAtB s (i + 3 + a + 3)) ∧ digitsAt s (i + 3 + a + 3 + bb) 4 ∧
      boundaryB s (i + 3 + a + 3 + bb + 4) then
    some (i + 3 + a + 3 + bb + 4)
  else none

/-- Matcher for `\b\d{3}[-.\s]?\d{3}[-.\s]?\d{4}\b` at position `i`; greedy
`?` groups are tried present-first. -/
def phoneMatchAt (s : List Char) (i : Nat) : Option Nat :=
  if boundaryB s i ∧ digitsAt s i 3 then
    [(1, 1), (1, 0), (0, 1), (0, 0)].findSome? (fun p => phoneTry s i p.1 p.2)
  else none

/-- End positions of one `\d[ -]*?` unit starting at `i`, in lazy order. -/
def unitEnds (s : List Char) (i : Nat) : List Nat :=
  match cAt s i with
  | some c =>
    if c.isDigit then
      (List.range (((s.drop (i + 1)).takeWhile cardSepB).length + 1)).map (fun k => i + 1 + k)
    else []
  | none => []

def concatMapNat (f : Nat → List Nat) : List Nat → List Nat
  | [] => []
  | x :: xs => f x ++ concatMapNat f xs

def unitsEnds (s : List Char) : Nat → Nat → List Nat
  | 0, i => [i]
  | c + 1, i => concatMapNat (fun j => unitsEnds s c j) (unitEnds s i)

/-- Matcher for `\b(?:\d[ -]*?){13,16}\b` at position `i`; the counted
repetition is greedy (16 first), the inner separator run lazy. -/
def cardMatchAt (s : List Char) (i : Nat) : Option Nat :=
  if boundaryB s i then
    [16, 15, 14, 13].findSome? (fun c => (unitsEnds s c i).find? (fun e => boundaryB s e))
  else none

/-- Leftmost match of a pattern in `s` (start and end positions). -/
def findPat (matchAt : List Char → Nat → Option Nat) (s : List Char) : Option (Nat × Nat) :=
  (List.range (s.length + 1)).findSome? (fun i => (matchAt s i).map (fun e => (i, e)))

/-- Model of `re.sub(pattern, "[REDACTED]", s)`: repeated leftmost replacement,
resuming after the match end.  Fuel-driven; callers pass `length + 1`. -/
def pySub (matchAt : List Char → Nat → Option Nat) : Nat → List Char → List Char
  | 0, s => s
  | f + 1, s =>
    match findPat matchAt s with
    | none => s
    | some p => s.take p.1 ++ redactedL ++ pySub matchAt f (s.drop p.2)

/-- Model of `remove_pii`: the three substitutions in source order. -/
def removePii (s : String) : String :=
  let t1 := pySub emailMatchAt (s.data.length + 1) s.data
  let t2 := pySub phoneMatchAt (t1.length + 1) t1
  let t3 := pySub cardMatchAt (t2.length + 1) t2
  String.mk t3

/-! ## `remove_repetitive_ngrams` -/

/-- The `n`-gram windows of a token list (`nltk.util.ngrams`). -/
def win (n : Nat) : List String → List (List String)
  | [] => []
  | x :: xs => if n ≤ xs.length + 1 then ((x :: xs).take n) :: win n xs else []

/-- The main loop of `remove_repetitive_ngrams`: skip an n-gram already seen,
otherwise record it and emit its first token. -/
def collapseNg : List (List String) → List (List String) → List String
  | [], _ => []
  | w :: ws, seen =>
    if w ∈ seen then collapseNg ws seen
    else w.headD "" :: collapseNg ws (w :: seen)

/-- Python `tokens[-(k):]` (note `tokens[-0:]` is the whole list). -/
def pyLastSlice (l : List String) (k : Nat) : List String :=
  if k = 0 then l else l.drop (l.length - k)

def removeRepetitiveNgrams (text : String) (n : Nat) : String :=
  let tokens := wordTokenize text
  if tokens = [] then text
  else joinSpace (collapseNg (win n tokens) [] ++ pyLastSlice tokens (n - 1))

/-! ## Loader (`load_file`) -/

/-- JSON-shaped values, one nesting level as used by the loader. -/
inductive JsonVal where
  | str : String → JsonVal
  | num : Int → JsonVal
  | dict : List (String × JsonVal) → JsonVal
  | arr : List JsonVal → JsonVal
  | null : JsonVal

/-- String-valued dict fields longer than 50 characters. -/
def strVals : List (String × JsonVal) → List String
  | [] => []
  | (_, JsonVal.str s) :: rest => if 50 < s.length then s :: strVals rest else strVals rest
  | _ :: rest => strVals rest

def extractItems : List JsonVal → List String
  | [] => []
  | JsonVal.str s :: rest => (if 50 < s.length then [s] else []) ++ extractItems rest
  | JsonVal.dict fields :: rest => strVals fields ++ extractItems rest
  | _ :: rest => extractItems rest

/-- Documents extracted from one parsed record (the three `isinstance` cases). -/
def extractDocs : JsonVal → List String
  | JsonVal.dict fields => strVals fields
  | JsonVal.str s => if 50 < s.length then [s] else []
  | JsonVal.arr items => extractItems items
  | _ => []

/-- Documents contributed by one line: a `json.loads` failure (modelled as
`none`) contributes nothing (`continue`). -/
def lineDocs (parse : String → Option JsonVal) (line : String) : List String :=
  match parse (pyStripStr line) with
  | none => []
  | some o => extractDocs o

def loadStructLines (parse : String → Option JsonVal) : List String → List String
  | [] => []
  | line :: rest => lineDocs parse line ++ loadStructLines parse rest

/-- Python text-file line iteration (after `strip`, terminators are gone; a
trailing newline produces no extra line). -/
def pyLinesAux : List Char → List Char → List String
  | [], acc => if acc.isEmpty then [] else [String.mk acc]
  | c :: cs, acc => if c == '\n' then String.mk acc :: pyLinesAux cs [] else pyLinesAux cs (acc ++ [c])

def pyLines (s : String) : List String :=
  pyLinesAux s.data []

/-- Model of `load_file`: structured suffixes go line-by-line, anything else is
one whole-content document. -/
def loadFile (parse : String → Option JsonVal) (sfx : String) (content : String) : List String :=
  if sfx = ".json" ∨ sfx = ".jsonl" then loadStructLines parse (pyLines content) else [content]

/-! ## Language filter (`detect_language` and the Step-1 filter) -/

def LANGUAGE_FILTER : List String := ["en"]

/-- Model of `detect_language`: a raising detector (modelled by `none`) yields
`"unknown"`. -/
def detectLanguage (det : String → Option String) (t : String) : String :=
  (det t).getD "unknown"

def langFiltered (det : String → Option String) (docs : List String) : List String :=
  docs.filter (fun t => LANGUAGE_FILTER.contains (detectLanguage det t))

/-! ## Statistics (Step 7) -/

def docTokens (t : String) : Nat := (wordTokenize t).length

def originalTokens (cleaned : List String) : Nat :=
  (cleaned.map docTokens).sum

/-- Steps 3-5 applied to the post-`strip_html` sequence. -/
def finalTexts (h : Nat → String → Nat) (b r : Nat) (cleaned : List String) : List String :=
  (dedupList h b r cleaned).map (fun t => removeRepetitiveNgrams (removePii t) 4)

def finalTokens (h : Nat → String → Nat) (b r : Nat) (cleaned : List String) : Nat :=
  ((finalTexts h b r cleaned).map docTokens).sum

/-- `removed_pct = 100 * (1 - final_tokens / max(original_tokens, 1))`. -/
def removedPct (h : Nat → String → Nat) (b r : Nat) (cleaned : List String) : ℚ :=
  100 * (1 - (finalTokens h b r cleaned : ℚ) / ((max (originalTokens cleaned) 1 : Nat) : ℚ))

/-! ## Concrete instantiations used in witnesses and counterexamples -/

/-- A fixed hash assignment used only to *instantiate* statements that are
proved for every permutation family; none of the facts evaluated under it
depend on the choice of family. -/
def hZero (_ : Nat) (_ : String) : Nat := 0

def detNone (_ : String) : Option String := none

def parseNone (_ : String) : Option JsonVal := none

/-- A toy line parser: a line is well-formed exactly when it is a quoted
string. -/
def parseToy (s : String) : Option JsonVal :=
  match s.data with
  | '\"' :: rest =>
    if rest.getLast? = some '\"' ∧ rest.length ≥ 1 then
      some (JsonVal.str (String.mk rest.dropLast))
    else none
  | _ => none

def aStr51 : String := String.mk (List.replicate 51 'a')

def bStr51 : String := String.mk (List.replicate 51 'b')

def quotedA : String := String.mk ('\"' :: (List.replicate 51 'a' ++ ['\"']))

def quotedB : String := String.mk ('\"' :: (List.replicate 51 'b' ++ ['\"']))

/-! ## Lemmas about the dedup loop -/

theorem dedupAux_append (h : Nat → String → Nat) (b r : Nat) (st : DState) (l₁ l₂ : List String) :
    dedupAux h b r st (l₁ ++ l₂) = dedupAux h b r (dedupAux h b r st l₁) l₂ := by
  induction l₁ generalizing st with
  | nil => rfl
  | cons d ds ih => simp [dedupAux, ih]

theorem lshQuery_append (b r : Nat) (sig : List Nat) (l e : Lsh) :
    lshQuery b r sig (l ++ e) = lshQuery b r sig l ++ lshQuery b r sig e := by
  simp [lshQuery, List.filter_append]

theorem lshQuery_ne_nil_append (b r : Nat) (sig : List Nat) (l e : Lsh)
    (hq : lshQuery b r sig l ≠ []) : lshQuery b r sig (l ++ e) ≠ [] := by
  rw [lshQuery_append]
  intro hc
  exact hq (List.append_eq_nil.mp hc).1

theorem lshQuery_self (b r : Nat) (hb : 0 < b) (k : Nat) (sig : List Nat) (lsh : Lsh) :
    lshQuery b r sig (lshInsert b r k sig lsh) ≠ [] := by
  have hbd : ((0 : Nat), sig.take r) ∈ bandsOf b r sig := by
    unfold bandsOf
    refine List.mem_map.mpr ⟨0, List.mem_range.mpr hb, ?_⟩
    simp
  have he : ((0 : Nat), sig.take r, k) ∈ lshInsert b r k sig lsh := by
    unfold lshInsert
    refine List.mem_append_right _ ?_
    have := List.mem_map_of_mem (fun bd => (bd.1, bd.2, k)) hbd
    simpa using this
  have hpred : (bandsOf b r sig).any
      (fun bd => bd.1 == (0 : Nat) && bd.2 == sig.take r) = true := by
    refine List.any_eq_true.mpr ⟨(0, sig.take r), hbd, ?_⟩
    simp
  have hmemf : ((0 : Nat), sig.take r, k) ∈ (lshInsert b r k sig lsh).filter
      (fun e => (bandsOf b r sig).any (fun bd => bd.1 == e.1 && bd.2 == e.2.1)) :=
    List.mem_filter.mpr ⟨he, hpred⟩
  unfold lshQuery
  exact List.ne_nil_of_mem (List.mem_map_of_mem _ hmemf)

theorem dedupStep_lsh_extends (h : Nat → String → Nat) (b r : Nat) (st : DState) (d : String) :
    ∃ ext, (dedupStep h b r st d).1 = st.1 ++ ext := by
  simp only [dedupStep]
  split
  · exact ⟨_, rfl⟩
  · exact ⟨[], (List.append_nil _).symm⟩

theorem dedupStep_out_extends (h : Nat → String → Nat) (b r : Nat) (st : DState) (d : String) :
    ∃ ext, (dedupStep h b r st d).2 = st.2 ++ ext := by
  simp only [dedupStep]
  split
  · exact ⟨[d], rfl⟩
  · exact ⟨[], (List.append_nil _).symm⟩

theorem dedupStep_of_ne (h : Nat → String → Nat) (b r : Nat) (st : DState) (d : String)
    (hq : lshQuery b r (getMinhash h d) st.1 ≠ []) : dedupStep h b r st d = st := by
  simp only [dedupStep]
  rw [if_neg hq]

theorem dedupAux_lsh_extends (h : Nat → String → Nat) (b r : Nat) (docs : List String)
    (st : DState) : ∃ ext, (dedupAux h b r st docs).1 = st.1 ++ ext := by
  induction docs generalizing st with
  | nil => exact ⟨[], (List.append_nil _).symm⟩
  | cons d ds ih =>
    obtain ⟨e₁, he₁⟩ := dedupStep_lsh_extends h b r st d
    obtain ⟨e₂, he₂⟩ := ih (dedupStep h b r st d)
    exact ⟨e₁ ++ e₂, by simp [dedupAux, he₂, he₁]⟩

theorem dedupAux_out_extends (h : Nat → String → Nat) (b r : Nat) (docs : List String)
    (st : DState) : ∃ ext, (dedupAux h b r st docs).2 = st.2 ++ ext := by
  induction docs generalizing st with
  | nil => exact ⟨[], (List.append_nil _).symm⟩
  | cons d ds ih =>
    obtain ⟨e₁, he₁⟩ := dedupStep_out_extends h b r st d
    obtain ⟨e₂, he₂⟩ := ih (dedupStep h b r st d)
    exact ⟨e₁ ++ e₂, by simp [dedupAux, he₂, he₁]⟩

theorem lshQuery_persist (h : Nat → String → Nat) (b r : Nat) (sig : List Nat)
    (st : DState) (docs : List String) (hq : lshQuery b r sig st.1 ≠ []) :
    lshQuery b r sig (dedupAux h b r st docs).1 ≠ [] := by
  obtain ⟨ext, he⟩ := dedupAux_lsh_extends h b r docs st
  rw [he]
  exact lshQuery_ne_nil_append b r sig st.1 ext hq

theorem dedup_processed_query (h : Nat → String → Nat) (b r : Nat) (hb : 0 < b)
    (docs : List String) (st : DState) (d : String) (hd : d ∈ docs) :
    lshQuery b r (getMinhash h d) (dedupAux h b r st docs).1 ≠ [] := by
  induction docs generalizing st with
  | nil => cases hd
  | cons x xs ih =>
    rcases List.mem_cons.mp hd with hdx | hdxs
    · subst hdx
      show lshQuery b r (getMinhash h d) (dedupAux h b r (dedupStep h b r st d) xs).1 ≠ []
      apply lshQuery_persist
      by_cases hq : lshQuery b r (getMinhash h d) st.1 = []
      · show lshQuery b r (getMinhash h d) (dedupStep h b r st d).1 ≠ []
        simp only [dedupStep]
        rw [if_pos hq]
        exact lshQuery_self b r hb st.2.length (getMinhash h d) st.1
      · rw [dedupStep_of_ne h b r st d hq]
        exact hq
    · exact ih (dedupStep h b r st x) hdxs

theorem dedup_good (h : Nat → String → Nat) (b r : Nat) (hb : 0 < b) (docs : List String)
    (st : DState) (hmem : ∀ t ∈ st.2, lshQuery b r (getMinhash h t) st.1 ≠ [])
    (hnd : st.2.Nodup) :
    (∀ t ∈ (dedupAux h b r st docs).2,
        lshQuery b r (getMinhash h t) (dedupAux h b r st docs).1 ≠ []) ∧
      (dedupAux h b r st docs).2.Nodup := by
  induction docs generalizing st with
  | nil => exact ⟨hmem, hnd⟩
  | cons x xs ih =>
    rw [show dedupAux h b r st (x :: xs) = dedupAux h b r (dedupStep h b r st x) xs from rfl]
    by_cases hq : lshQuery b r (getMinhash h x) st.1 = []
    · have hstep : dedupStep h b r st x =
          (lshInsert b r st.2.length (getMinhash h x) st.1, st.2 ++ [x]) := by
        simp only [dedupStep]
        rw [if_pos hq]
      refine ih (dedupStep h b r st x) ?_ ?_
      · intro t ht
        rw [hstep] at ht ⊢
        rcases List.mem_append.mp ht with htl | htr
        · have := hmem t htl
          exact lshQuery_ne_nil_append b r (getMinhash h t) st.1 _ this
        · have htx : t = x := by simpa using htr
          subst htx
          exact lshQuery_self b r hb st.2.length (getMinhash h t) st.1
      · rw [hstep]
        refine List.nodup_append.mpr ⟨hnd, List.nodup_singleton x, ?_⟩
        intro a ha hax
        have hax' : a = x := by simpa using hax
        subst hax'
        exact hmem _ ha hq
    · rw [dedupStep_of_ne h b r st x hq]
      exact ih st hmem hnd

theorem dedup_facts (h : Nat → String → Nat) (b r : Nat) (hb : 0 < b)
    (l₁ : List String) (t : String) (l₂ : List String) (ht : t ∈ l₁) :
    lshQuery b r (getMinhash h t) (dedupAux h b r ([], []) l₁).1 ≠ [] ∧
      dedupList h b r (l₁ ++ t :: l₂) = dedupList h b r (l₁ ++ l₂) ∧
      (dedupList h b r (l₁ ++ t :: l₂)).count t ≤ 1 ∧
      (∀ l₀, l₁ = t :: l₀ → (dedupList h b r (l₁ ++ t :: l₂)).count t = 1) := by
  have hquery := dedup_processed_query h b r hb l₁ ([], []) t ht
  have hdrop : dedupList h b r (l₁ ++ t :: l₂) = dedupList h b r (l₁ ++ l₂) := by
    unfold dedupList
    rw [dedupAux_append, dedupAux_append]
    have hstep : dedupAux h b r (dedupAux h b r ([], []) l₁) (t :: l₂) =
        dedupAux h b r (dedupStep h b r (dedupAux h b r ([], []) l₁) t) l₂ := rfl
    rw [hstep, dedupStep_of_ne h b r _ t hquery]
  have hnodup : (dedupList h b r (l₁ ++ t :: l₂)).Nodup := by
    unfold dedupList
    exact (dedup_good h b r hb (l₁ ++ t :: l₂) ([], []) (by intro t ht; cases ht)
      List.nodup_nil).2
  have hcount : (dedupList h b r (l₁ ++ t :: l₂)).count t ≤ 1 :=
    List.nodup_iff_count_le_one.mp hnodup t
  refine ⟨hquery, hdrop, hcount, ?_⟩
  intro l₀ h₀
  subst h₀
  have hstep0 : dedupStep h b r ([], []) t =
      (lshInsert b r 0 (getMinhash h t) [], [t]) := rfl
  have hmem : t ∈ dedupList h b r ((t :: l₀) ++ t :: l₂) := by
    unfold dedupList
    show t ∈ (dedupAux h b r (dedupStep h b r ([], []) t) (l₀ ++ t :: l₂)).2
    obtain ⟨ext, hext⟩ := dedupAux_out_extends h b r (l₀ ++ t :: l₂) (dedupStep h b r ([], []) t)
    rw [hext, hstep0]
    exact List.mem_append_left _ (List.mem_singleton_self t)
  exact Nat.le_antisymm hcount (List.count_pos_iff.mpr hmem)

/-! ## Lemmas about `remove_repetitive_ngrams` -/

theorem collapseNg_of_nodup (ws seen : List (List String)) (hnd : ws.Nodup)
    (hdisj : ∀ w ∈ ws, w ∉ seen) :
    collapseNg ws seen = ws.map (fun w => w.headD "") := by
  induction ws generalizing seen with
  | nil => rfl
  | cons w ws ih =>
    have hw : w ∉ seen := hdisj w (List.mem_cons_self w ws)
    simp only [collapseNg]
    rw [if_neg hw]
    simp only [List.map_cons]
    congr 1
    refine ih (w :: seen) (List.Nodup.of_cons hnd) ?_
    intro v hv hvin
    rcases List.mem_cons.mp hvin with h1 | h2
    · exact (List.nodup_cons.mp hnd).1 (h1 ▸ hv)
    · exact hdisj v (List.mem_cons_of_mem _ hv) h2

theorem win_short (n : Nat) (l : List String) (hl : l.length < n) : win n l = [] := by
  cases l with
  | nil => rfl
  | cons y ys =>
    simp only [win]
    rw [if_neg (by simp at hl; omega)]

theorem win_map_headD (n : Nat) (hn : 1 ≤ n) (l : List String) (hlen : n ≤ l.length) :
    (win n l).map (fun w => w.headD "") = l.take (l.length - (n - 1)) := by
  induction l with
  | nil => simp at hlen; omega
  | cons x xs ih =>
    simp only [win]
    rw [if_pos (by simp at hlen; omega)]
    simp only [List.map_cons]
    obtain ⟨m, rfl⟩ : ∃ m, n = m + 1 := ⟨n - 1, by omega⟩
    rw [List.take_succ_cons]
    simp only [List.headD_cons]
    by_cases hx : m + 1 ≤ xs.length
    · have harith : (x :: xs).length - (m + 1 - 1) = (xs.length - (m + 1 - 1)) + 1 := by
        simp
        omega
      rw [harith, List.take_succ_cons, ih hx]
    · have hxlen : xs.length < m + 1 := by omega
      rw [win_short (m + 1) xs hxlen]
      have heq : xs.length = m := by simp at hlen; omega
      have harith : (x :: xs).length - (m + 1 - 1) = 1 := by simp; omega
      rw [harith]
      have hfull : xs.take m = xs := List.take_of_length_le (by omega)
      simp [hfull]

theorem collapse_core_id (n : Nat) (hn : 2 ≤ n) (ts : List String) (hlen : n ≤ ts.length)
    (hnd : (win n ts).Nodup) :
    collapseNg (win n ts) [] ++ pyLastSlice ts (n - 1) = ts := by
  rw [collapseNg_of_nodup _ _ hnd (by intro w _ hw; cases hw)]
  rw [win_map_headD n (by omega) ts hlen]
  unfold pyLastSlice
  rw [if_neg (by omega)]
  exact List.take_append_drop _ ts

/-! ## Lemmas about `strip_html` -/

theorem collapseAux_ws_true (d : Char) (ds : List Char) (hd : isPyWs d = true) :
    collapseAux true (d :: ds) = collapseAux true ds := by
  simp [collapseAux, hd]

theorem collapseAux_ws_false (d : Char) (ds : List Char) (hd : isPyWs d = true) :
    collapseAux false (d :: ds) = ' ' :: collapseAux true ds := by
  simp [collapseAux, hd]

theorem collapseAux_nws (flag : Bool) (d : Char) (ds : List Char) (hd : isPyWs d = false) :
    collapseAux flag (d :: ds) = d :: collapseAux false ds := by
  simp [collapseAux, hd]

theorem getTextL_clean (f : Nat) (l : List Char) (hf : l.length < f)
    (hc : ∀ c ∈ l, ¬(c = '<' ∨ c = '&')) : getTextL f l = l := by
  induction f generalizing l with
  | zero => omega
  | succ f ih =>
    cases l with
    | nil => rfl
    | cons c cs =>
      have hcc := hc c (List.mem_cons_self c cs)
      simp only [getTextL]
      rw [if_neg (fun hlt => hcc (Or.inl hlt)), if_neg (fun hamp => hcc (Or.inr hamp))]
      congr 1
      exact ih cs (by simp at hf; omega) (fun d hd => hc d (List.mem_cons_of_mem c hd))

theorem unescapeL_clean (f : Nat) (l : List Char) (hf : l.length < f)
    (hc : ∀ c ∈ l, ¬(c = '&')) : unescapeL f l = l := by
  induction f generalizing l with
  | zero => omega
  | succ f ih =>
    cases l with
    | nil => rfl
    | cons c cs =>
      have hcc := hc c (List.mem_cons_self c cs)
      simp only [unescapeL]
      rw [if_neg hcc]
      congr 1
      exact ih cs (by simp at hf; omega) (fun d hd => hc d (List.mem_cons_of_mem c hd))

theorem mem_collapseAux (flag : Bool) (l : List Char) (c : Char)
    (hm : c ∈ collapseAux flag l) : c ∈ l ∨ c = ' ' := by
  induction l generalizing flag with
  | nil => cases hm
  | cons d ds ih =>
    by_cases hd : isPyWs d = true
    · cases flag with
      | true =>
        rw [collapseAux_ws_true d ds hd] at hm
        rcases ih true hm with h1 | h2
        · exact Or.inl (List.mem_cons_of_mem d h1)
        · exact Or.inr h2
      | false =>
        rw [collapseAux_ws_false d ds hd] at hm
        rcases List.mem_cons.mp hm with h0 | h1
        · exact Or.inr h0
        · rcases ih true h1 with h2 | h3
          · exact Or.inl (List.mem_cons_of_mem d h2)
          · exact Or.inr h3
    · rw [collapseAux_nws flag d ds (by simpa using hd)] at hm
      rcases List.mem_cons.mp hm with h0 | h1
      · exact Or.inl (h0 ▸ List.mem_cons_self d ds)
      · rcases ih false h1 with h2 | h3
        · exact Or.inl (List.mem_cons_of_mem d h2)
        · exact Or.inr h3

theorem mem_dropWs (l : List Char) (c : Char) (hm : c ∈ dropWs l) : c ∈ l := by
  induction l with
  | nil => cases hm
  | cons d ds ih =>
    by_cases hd : isPyWs d = true
    · rw [show dropWs (d :: ds) = dropWs ds by simp [dropWs, hd]] at hm
      exact List.mem_cons_of_mem d (ih hm)
    · rw [show dropWs (d :: ds) = d :: ds by simp [dropWs, hd]] at hm
      exact hm

theorem mem_pyStripL (l : List Char) (c : Char) (hm : c ∈ pyStripL l) : c ∈ l := by
  unfold pyStripL at hm
  have h1 := List.mem_reverse.mp hm
  have h2 := mem_dropWs _ _ h1
  have h3 := List.mem_reverse.mp h2
  exact mem_dropWs _ _ h3

/-- All whitespace characters are plain spaces. -/
def AllWsSp (l : List Char) : Prop := ∀ c ∈ l, isPyWs c = true → c = ' '

/-- No two adjacent whitespace characters. -/
def NoAdjWs (l : List Char) : Prop :=
  l.Chain' (fun a d => ¬(isPyWs a = true ∧ isPyWs d = true))

theorem collapse_good (l : List Char) :
    (AllWsSp (collapseAux true l) ∧ AllWsSp (collapseAux false l)) ∧
      (NoAdjWs (collapseAux true l) ∧ NoAdjWs (collapseAux false l)) ∧
      (∀ c cs', collapseAux true l = c :: cs' → isPyWs c = false) := by
  induction l with
  | nil =>
    refine ⟨⟨?_, ?_⟩, ⟨?_, ?_⟩, ?_⟩ <;> first
      | exact fun c hc => absurd hc (List.not_mem_nil c)
      | exact List.chain'_nil
      | exact fun c cs' hcc => absurd hcc (by simp [collapseAux])
  | cons d ds ih =>
    obtain ⟨⟨iT, iF⟩, ⟨cT, cF⟩, hT⟩ := ih
    by_cases hd : isPyWs d = true
    · rw [collapseAux_ws_true d ds hd, collapseAux_ws_false d ds hd]
      refine ⟨⟨iT, ?_⟩, ⟨cT, ?_⟩, fun c cs' hcc => hT c cs' hcc⟩
      · intro c hc hw
        rcases List.mem_cons.mp hc with h0 | h1
        · exact h0
        · exact iT c h1 hw
      · refine List.chain'_cons'.mpr ⟨?_, cT⟩
        intro y hy
        cases hX : collapseAux true ds with
        | nil => rw [hX] at hy; cases hy
        | cons e es =>
          rw [hX] at hy
          simp only [List.head?_cons, Option.mem_def, Option.some.injEq] at hy
          subst hy
          intro hand
          exact absurd hand.2 (by simp [hT e es hX])
    · have hd' : isPyWs d = false := by simpa using hd
      rw [collapseAux_nws true d ds hd', collapseAux_nws false d ds hd']
      have hmem : AllWsSp (d :: collapseAux false ds) := by
        intro c hc hw
        rcases List.mem_cons.mp hc with h0 | h1
        · subst h0; rw [hw] at hd'; cases hd'
        · exact iF c h1 hw
      have hchain : NoAdjWs (d :: collapseAux false ds) := by
        refine List.chain'_cons'.mpr ⟨?_, cF⟩
        intro y _ hand
        rw [hand.1] at hd'
        cases hd'
      exact ⟨⟨hmem, hmem⟩, ⟨hchain, hchain⟩, fun c cs' hcc => by
        injection hcc with h1 _
        exact h1 ▸ hd'⟩

theorem collapseAux_true_eq_false (l : List Char)
    (hh : ∀ c cs', l = c :: cs' → isPyWs c = false) :
    collapseAux true l = collapseAux false l := by
  cases l with
  | nil => rfl
  | cons d ds =>
    rw [collapseAux_nws true d ds (hh d ds rfl), collapseAux_nws false d ds (hh d ds rfl)]

theorem collapse_id (l : List Char) (hall : AllWsSp l) (hadj : NoAdjWs l) :
    collapseAux false l = l := by
  induction l with
  | nil => rfl
  | cons d ds ih =>
    by_cases hd : isPyWs d = true
    · have hd' : d = ' ' := hall d (List.mem_cons_self d ds) hd
      rw [collapseAux_ws_false d ds hd]
      have hds_head : ∀ c cs', ds = c :: cs' → isPyWs c = false := by
        intro c cs' hds
        have := (List.chain'_cons'.mp hadj).1 c (by rw [hds]; simp)
        by_contra hcw
        exact this ⟨hd, by simpa using hcw⟩
      rw [collapseAux_true_eq_false ds hds_head]
      rw [ih (fun c hc hw => hall c (List.mem_cons_of_mem d hc) hw)
        ((List.chain'_cons'.mp hadj).2)]
      rw [hd']
    · have hd' : isPyWs d = false := by simpa using hd
      rw [collapseAux_nws false d ds hd']
      rw [ih (fun c hc hw => hall c (List.mem_cons_of_mem d hc) hw)
        ((List.chain'_cons'.mp hadj).2)]

theorem dropWs_len (l : List Char) : (dropWs l).length ≤ l.length := by
  induction l with
  | nil => simp [dropWs]
  | cons d ds ih =>
    by_cases hd : isPyWs d = true
    · rw [show dropWs (d :: ds) = dropWs ds by simp [dropWs, hd]]
      simp
      omega
    · rw [show dropWs (d :: ds) = d :: ds by simp [dropWs, hd]]

theorem dropWs_of_head (c : Char) (cs : List Char) (hd : isPyWs c = false) :
    dropWs (c :: cs) = c :: cs := by
  simp [dropWs, hd]

theorem dropWs_head (l : List Char) (c : Char) (cs : List Char) (hm : dropWs l = c :: cs) :
    isPyWs c = false := by
  induction l with
  | nil => cases hm
  | cons d ds ih =>
    by_cases hd : isPyWs d = true
    · rw [show dropWs (d :: ds) = dropWs ds by simp [dropWs, hd]] at hm
      exact ih hm
    · rw [show dropWs (d :: ds) = d :: ds by simp [dropWs, hd]] at hm
      injection hm with h1 _
      subst h1
      simpa using hd

theorem dropWs_idem (l : List Char) : dropWs (dropWs l) = dropWs l := by
  cases hm : dropWs l with
  | nil => rfl
  | cons c cs => exact dropWs_of_head c cs (dropWs_head l c cs hm)

theorem dropWs_suffix (l : List Char) : ∃ t, t ++ dropWs l = l := by
  induction l with
  | nil => exact ⟨[], rfl⟩
  | cons d ds ih =>
    by_cases hd : isPyWs d = true
    · obtain ⟨t, ht⟩ := ih
      refine ⟨d :: t, ?_⟩
      rw [show dropWs (d :: ds) = dropWs ds by simp [dropWs, hd]]
      simp [ht]
    · refine ⟨[], ?_⟩
      rw [dropWs_of_head d ds (by simpa using hd)]
      rfl

theorem dropWs_strip_stable (l : List Char) (hself : dropWs l = l) :
    dropWs ((dropWs l.reverse).reverse) = (dropWs l.reverse).reverse := by
  cases l with
  | nil => rfl
  | cons c cs =>
    have hc : isPyWs c = false := by
      by_contra hcw
      have hw : isPyWs c = true := by simpa using hcw
      have hlen := dropWs_len cs
      rw [show dropWs (c :: cs) = dropWs cs by simp [dropWs, hw]] at hself
      have := congrArg List.length hself
      simp at this
      omega
    cases hv : dropWs ((c :: cs).reverse) with
    | nil => rfl
    | cons d ds =>
      obtain ⟨t, ht⟩ := dropWs_suffix ((c :: cs).reverse)
      rw [hv] at ht
      have hrev : (d :: ds).reverse ++ t.reverse = c :: cs := by
        have := congrArg List.reverse ht
        simpa [List.reverse_append] using this
      cases hvr : (d :: ds).reverse with
      | nil => exact absurd (congrArg List.length hvr) (by simp)
      | cons e es =>
        rw [hvr] at hrev
        have hec : e = c := by
          have := congrArg (fun l => l.head?) hrev
          simpa using this
        exact dropWs_of_head e es (hec ▸ hc)

theorem pyStripL_expand (l : List Char) : pyStripL l = (dropWs ((dropWs l).reverse)).reverse := rfl

theorem pyStripL_idem (l : List Char) : pyStripL (pyStripL l) = pyStripL l := by
  have fact1 : dropWs (pyStripL l) = pyStripL l := by
    rw [pyStripL_expand]
    exact dropWs_strip_stable (dropWs l) (dropWs_idem l)
  have fact2 : dropWs (pyStripL l).reverse = (pyStripL l).reverse := by
    rw [pyStripL_expand, List.reverse_reverse]
    exact dropWs_idem _
  rw [pyStripL_expand (pyStripL l), fact1, fact2, List.reverse_reverse]

theorem allWsSp_pyStripL (l : List Char) (h : AllWsSp l) : AllWsSp (pyStripL l) :=
  fun c hc hw => h c (mem_pyStripL l c hc) hw

theorem noAdjWs_dropWs (l : List Char) (h : NoAdjWs l) : NoAdjWs (dropWs l) := by
  induction l with
  | nil => exact h
  | cons d ds ih =>
    by_cases hd : isPyWs d = true
    · rw [show dropWs (d :: ds) = dropWs ds by simp [dropWs, hd]]
      exact ih h.tail
    · rw [dropWs_of_head d ds (by simpa using hd)]
      exact h

theorem noAdjWs_reverse (l : List Char) (h : NoAdjWs l) : NoAdjWs l.reverse := by
  unfold NoAdjWs at h ⊢
  rw [List.chain'_reverse]
  exact h.imp (fun a d had hand => had ⟨hand.2, hand.1⟩)

theorem noAdjWs_pyStripL (l : List Char) (h : NoAdjWs l) : NoAdjWs (pyStripL l) := by
  rw [pyStripL_expand]
  exact noAdjWs_reverse _ (noAdjWs_dropWs _ (noAdjWs_reverse _ (noAdjWs_dropWs _ h)))

theorem stripHtml_clean (s : String) (hc : ∀ c ∈ s.data, ¬(c = '<' ∨ c = '&')) :
    stripHtml s = String.mk (pyStripL (collapseWs s.data)) := by
  simp only [stripHtml]
  rw [getTextL_clean _ _ (by omega) hc]
  rw [unescapeL_clean _ _ (by omega) (fun c hcm hand => hc c hcm (Or.inr hand))]

theorem stripHtml_idem_clean (s : String) (hc : ∀ c ∈ s.data, ¬(c = '<' ∨ c = '&')) :
    stripHtml (stripHtml s) = stripHtml s := by
  have h1 := stripHtml_clean s hc
  have hm : ∀ c ∈ (String.mk (pyStripL (collapseWs s.data))).data, ¬(c = '<' ∨ c = '&') := by
    intro c hcm
    have hcm' : c ∈ pyStripL (collapseWs s.data) := hcm
    have h2 := mem_pyStripL _ _ hcm'
    rcases mem_collapseAux false s.data c h2 with h3 | h4
    · exact hc c h3
    · subst h4
      rintro (h5 | h5) <;> cases h5
  rw [h1]
  rw [stripHtml_clean _ hm]
  have hgood := collapse_good s.data
  have hall : AllWsSp (pyStripL (collapseWs s.data)) :=
    allWsSp_pyStripL _ hgood.1.2
  have hadj : NoAdjWs (pyStripL (collapseWs s.data)) :=
    noAdjWs_pyStripL _ hgood.2.1.2
  have hcoll : collapseWs ((String.mk (pyStripL (collapseWs s.data))).data) =
      pyStripL (collapseWs s.data) := collapse_id _ hall hadj
  rw [hcoll, pyStripL_idem]

/-! ## Lemmas about the loader and the empty signature -/

theorem getMinhash_empty (h : Nat → String → Nat) :
    getMinhash h "" = List.replicate NUMPERM MAXHASH := by
  unfold getMinhash
  rw [show tokenSet "" = [] from rfl]
  simp only [List.foldl_nil]
  rw [List.map_const']
  rw [List.length_range]

theorem loadStructLines_append (parse : String → Option JsonVal) (l₁ l₂ : List String) :
    loadStructLines parse (l₁ ++ l₂) =
      loadStructLines parse l₁ ++ loadStructLines parse l₂ := by
  induction l₁ with
  | nil => rfl
  | cons x xs ih => simp [loadStructLines, ih]

theorem strVals_len (fields : List (String × JsonVal)) (d : String)
    (hd : d ∈ strVals fields) : 50 < d.length := by
  induction fields with
  | nil => cases hd
  | cons kv rest ih =>
    obtain ⟨k, v⟩ := kv
    cases v with
    | str s =>
      by_cases h50 : 50 < s.length
      · rw [show strVals ((k, JsonVal.str s) :: rest) = s :: strVals rest by
          simp [strVals, h50]] at hd
        rcases List.mem_cons.mp hd with h1 | h2
        · exact h1 ▸ h50
        · exact ih h2
      · rw [show strVals ((k, JsonVal.str s) :: rest) = strVals rest by
          simp [strVals, h50]] at hd
        exact ih hd
    | num n => exact ih hd
    | dict fs => exact ih hd
    | arr its => exact ih hd
    | null => exact ih hd

theorem extractItems_len (items : List JsonVal) (d : String)
    (hd : d ∈ extractItems items) : 50 < d.length := by
  induction items with
  | nil => cases hd
  | cons it rest ih =>
    cases it with
    | str s =>
      by_cases h50 : 50 < s.length
      · rw [show extractItems (JsonVal.str s :: rest) = [s] ++ extractItems rest by
          simp [extractItems, h50]] at hd
        rcases List.mem_append.mp hd with h1 | h2
        · exact (by simpa using h1 : d = s) ▸ h50
        · exact ih h2
      · rw [show extractItems (JsonVal.str s :: rest) = [] ++ extractItems rest by
          simp [extractItems, h50]] at hd
        exact ih (by simpa using hd)
    | dict fs =>
      rw [show extractItems (JsonVal.dict fs :: rest) = strVals fs ++ extractItems rest
        from rfl] at hd
      rcases List.mem_append.mp hd with h1 | h2
      · exact strVals_len fs d h1
      · exact ih h2
    | num n => exact ih hd
    | arr its => exact ih hd
    | null => exact ih hd

theorem extractDocs_len (o : JsonVal) (d : String) (hd : d ∈ extractDocs o) :
    50 < d.length := by
  cases o with
  | str s =>
    by_cases h50 : 50 < s.length
    · rw [show extractDocs (JsonVal.str s) = [s] by simp [extractDocs, h50]] at hd
      exact (by simpa using hd : d = s) ▸ h50
    · rw [show extractDocs (JsonVal.str s) = [] by simp [extractDocs, h50]] at hd
      cases hd
  | dict fs => exact strVals_len fs d hd
  | arr its => exact extractItems_len its d hd
  | num n => cases hd
  | null => cases hd

theorem loadStructLines_len (parse : String → Option JsonVal) (lines : List String)
    (d : String) (hd : d ∈ loadStructLines parse lines) : 50 < d.length := by
  induction lines with
  | nil => cases hd
  | cons line rest ih =>
    rw [show loadStructLines parse (line :: rest) =
        lineDocs parse line ++ loadStructLines parse rest from rfl] at hd
    rcases List.mem_append.mp hd with h1 | h2
    · unfold lineDocs at h1
      cases hp : parse (pyStripStr line) with
      | none => rw [hp] at h1; cases h1
      | some o => rw [hp] at h1; exact extractDocs_len o d h1
    · exact ih h2

/-! ## Family-independent signature collisions

`get_minhash` depends only on the token *set* of the lowercased text, so two
texts with equal token sets have identical signatures under every permutation
family — in particular under datasketch's actual seeded family. -/

theorem getMinhash_token_set_swap (h : Nat → String → Nat) :
    getMinhash h "a b" = getMinhash h "b a" := by
  unfold getMinhash
  refine congrArg (fun f => List.map f (List.range NUMPERM)) (funext fun i => ?_)
  rw [show tokenSet "a b" = ["a", "b"] from by decide,
    show tokenSet "b a" = ["b", "a"] from by decide]
  simp only [List.foldl_cons, List.foldl_nil]
  rw [min_assoc, min_assoc, min_comm (h i "a") (h i "b")]

theorem getMinhash_whitespace_empty (h : Nat → String → Nat) :
    getMinhash h "   " = getMinhash h "" := rfl

theorem dedupAux_fixed (h : Nat → String → Nat) (b r : Nat) (st : DState) (ds : List String)
    (hfix : ∀ d ∈ ds, dedupStep h b r st d = st) : dedupAux h b r st ds = st := by
  induction ds with
  | nil => rfl
  | cons d rest ih =>
    rw [show dedupAux h b r st (d :: rest) = dedupAux h b r (dedupStep h b r st d) rest
      from rfl]
    rw [hfix d (List.mem_cons_self d rest)]
    exact ih (fun d' hd' => hfix d' (List.mem_cons_of_mem d hd'))

/-- If every document after the first has the first document's signature,
only the first document survives the dedup loop. -/
theorem dedup_all_shadowed (h : Nat → String → Nat) (b r : Nat) (hb : 0 < b)
    (u : String) (l₂ : List String)
    (hall : ∀ d ∈ l₂, getMinhash h d = getMinhash h u) :
    dedupList h b r (u :: l₂) = [u] := by
  unfold dedupList
  rw [show dedupAux h b r ([], []) (u :: l₂) =
      dedupAux h b r (lshInsert b r 0 (getMinhash h u) [], [u]) l₂ from rfl]
  have hfix : ∀ d ∈ l₂, dedupStep h b r (lshInsert b r 0 (getMinhash h u) [], [u]) d =
      (lshInsert b r 0 (getMinhash h u) [], [u]) := by
    intro d hd
    apply dedupStep_of_ne
    show lshQuery b r (getMinhash h d) (lshInsert b r 0 (getMinhash h u) []) ≠ []
    rw [hall d hd]
    exact lshQuery_self b r hb 0 (getMinhash h u) []
  rw [dedupAux_fixed h b r _ l₂ hfix]

/-! ## Claim theorems -/

/-- Claim C1 (amended): in the Step-3 MinHash/LSH loop, whenever a document
text occurs again after an earlier occurrence, the later occurrence's
signature equals the earlier one's (both are `getMinhash h t`), its LSH query
at that point is non-empty, and it is dropped — removing it from the input
leaves the dedup output unchanged.  At most one copy ever survives, and
exactly one (the first occurrence) when the duplicated text opens the
sequence.  This holds for every permutation family `h` and band layout with
at least one band.  "Exactly one survives" cannot be promised in general: an
earlier document with the same token set (the same words in any order) has
the identical signature and shadows even the first occurrence — see the
counterexample. -/
theorem dedup_second_occurrence_dropped (h : Nat → String → Nat) (b r : Nat) (hb : 0 < b)
    (l₁ : List String) (t : String) (l₂ : List String) (ht : t ∈ l₁) :
    lshQuery b r (getMinhash h t) (dedupAux h b r ([], []) l₁).1 ≠ [] ∧
      dedupList h b r (l₁ ++ t :: l₂) = dedupList h b r (l₁ ++ l₂) ∧
      (dedupList h b r (l₁ ++ t :: l₂)).count t ≤ 1 ∧
      (∀ l₀, l₁ = t :: l₀ → (dedupList h b r (l₁ ++ t :: l₂)).count t = 1) :=
  dedup_facts h b r hb l₁ t l₂ ht

/-- Witness for C1 at the spec's own scenario: the same text twice, at the
`b·r = 128` band layout. -/
theorem dedup_second_occurrence_dropped_witness :
    0 < 16 ∧ "x" ∈ ["x"] ∧
      dedupList hZero 16 8 (["x"] ++ "x" :: []) = dedupList hZero 16 8 (["x"] ++ []) ∧
      (dedupList hZero 16 8 (["x"] ++ "x" :: [])).count "x" = 1 := by
  refine ⟨by decide, by decide, ?_, ?_⟩
  · exact (dedup_second_occurrence_dropped hZero 16 8 (by decide) ["x"] "x" []
      (by decide)).2.1
  · exact (dedup_second_occurrence_dropped hZero 16 8 (by decide) ["x"] "x" []
      (by decide)).2.2.2 [] rfl

/-- Claim C1 counterexample: the MinHash signature depends only on the token
*set* of the lowercased text, so `"b a"` and `"a b"` have identical
signatures under *every* permutation family — in particular under
datasketch's actual seeded family.  In `["b a", "a b", "a b"]` the text
`"a b"` occurs twice, yet for every family and every layout with at least one
band *zero* copies survive: `"b a"` claims every band first, so even the
first occurrence of `"a b"` is dropped as its duplicate.  This refutes
"exactly one copy (the first occurrence) survives".  The last conjunct
exhibits the computation at datasketch's `b·r = 128` layout. -/
theorem dedup_duplicate_text_zero_survivors :
    (["b a", "a b", "a b"].count "a b" = 2) ∧
      (∀ h : Nat → String → Nat, getMinhash h "a b" = getMinhash h "b a") ∧
      (∀ (h : Nat → String → Nat) (b r : Nat), 0 < b →
        (dedupList h b r ["b a", "a b", "a b"]).count "a b" = 0) ∧
      dedupList hZero 16 8 ["b a", "a b", "a b"] = ["b a"] := by
  refine ⟨by decide, getMinhash_token_set_swap, ?_, by decide⟩
  intro h b r hb
  have hall : ∀ d ∈ (["a b", "a b"] : List String),
      getMinhash h d = getMinhash h "b a" := by
    intro d hd
    have hd' : d = "a b" := by
      rcases List.mem_cons.mp hd with h1 | h2
      · exact h1
      · simpa using h2
    rw [hd']
    exact getMinhash_token_set_swap h
  rw [dedup_all_shadowed h b r hb "b a" ["a b", "a b"] hall]
  decide

/-- Claim C2 (amended): the empty document tokenizes to the empty token set,
its signature is the all-`MAXHASH` vector (the identity of `min`, as for
datasketch's initial hash values), any empty document occurring after an
earlier empty one is dropped (removing it leaves the output unchanged), at
most one empty document survives, and exactly one when the sequence starts
with the empty document.  The stage is a total function, so no exception can
arise.  "The first empty document is accepted" cannot be promised in
general: an earlier document whose token set is also empty (e.g. a
whitespace-only document) has the identical all-`MAXHASH` signature and
shadows it — see the counterexample. -/
theorem dedup_empty_documents (h : Nat → String → Nat) (b r : Nat) (hb : 0 < b)
    (l₁ l₂ : List String) (ht : "" ∈ l₁) :
    tokenSet "" = [] ∧
      getMinhash h "" = List.replicate NUMPERM MAXHASH ∧
      dedupList h b r (l₁ ++ "" :: l₂) = dedupList h b r (l₁ ++ l₂) ∧
      (dedupList h b r (l₁ ++ "" :: l₂)).count "" ≤ 1 ∧
      (∀ l₀, l₁ = "" :: l₀ → (dedupList h b r (l₁ ++ "" :: l₂)).count "" = 1) := by
  obtain ⟨h1, h2, h3, h4⟩ := dedup_facts h b r hb l₁ "" l₂ ht
  exact ⟨rfl, getMinhash_empty h, h2, h3, h4⟩

/-- Witness for C2: two empty documents, the first opens the sequence, at
the `b·r = 128` band layout. -/
theorem dedup_empty_documents_witness :
    0 < 16 ∧ "" ∈ [""] ∧
      tokenSet "" = [] ∧
      dedupList hZero 16 8 ([""] ++ "" :: []) = dedupList hZero 16 8 ([""] ++ []) ∧
      (dedupList hZero 16 8 ([""] ++ "" :: [])).count "" = 1 := by
  refine ⟨by decide, by decide,
    (dedup_empty_documents hZero 16 8 (by decide) [""] [] (by decide)).1,
    (dedup_empty_documents hZero 16 8 (by decide) [""] [] (by decide)).2.2.1,
    (dedup_empty_documents hZero 16 8 (by decide) [""] [] (by decide)).2.2.2.2 [] rfl⟩

/-- Claim C2 counterexample: a whitespace-only document also tokenizes to the
empty token set, so its signature is the same all-`MAXHASH` vector as the
empty document's under *every* permutation family — in particular under
datasketch's actual seeded family (no `update` call is made for either).  In
`["   ", ""]` the first (and only) empty document is therefore dropped as a
duplicate of the whitespace document rather than accepted, for every family
and every layout with at least one band — refuting "the first empty document
in the sequence is accepted".  The last conjunct exhibits the computation at
datasketch's `b·r = 128` layout. -/
theorem dedup_first_empty_shadowed :
    tokenSet "   " = [] ∧
      (∀ h : Nat → String → Nat, getMinhash h "   " = getMinhash h "") ∧
      (∀ (h : Nat → String → Nat) (b r : Nat), 0 < b →
        "" ∉ dedupList h b r ["   ", ""]) ∧
      dedupList hZero 16 8 ["   ", ""] = ["   "] := by
  refine ⟨rfl, getMinhash_whitespace_empty, ?_, by decide⟩
  intro h b r hb
  have hall : ∀ d ∈ ([""] : List String), getMinhash h d = getMinhash h "   " := by
    intro d hd
    have hd' : d = "" := by simpa using hd
    rw [hd']
    exact (getMinhash_whitespace_empty h).symm
  rw [dedup_all_shadowed h b r hb "   " [""] hall]
  decide

/-- Claim C3 (confirmed): on token sequence `[a,b,c,d,a,b,c,d,e]` with `n = 4`
the collapse drops exactly one occurrence of `a` (output token count of `a`
is 1 against 2 in the input), appends the final 3 input tokens verbatim, and
produces the deterministic 8-token output `a b c d b c d e`. -/
theorem repetition_collapse_boundary :
    removeRepetitiveNgrams "a b c d a b c d e" 4 = "a b c d b c d e" ∧
      (wordTokenize (removeRepetitiveNgrams "a b c d a b c d e" 4)).length = 8 ∧
      (wordTokenize "a b c d a b c d e").count "a" = 2 ∧
      (wordTokenize (removeRepetitiveNgrams "a b c d a b c d e" 4)).count "a" = 1 ∧
      (wordTokenize (removeRepetitiveNgrams "a b c d a b c d e" 4)).drop 5 =
        pyLastSlice (wordTokenize "a b c d a b c d e") 3 := by
  exact ⟨by decide, by decide, by decide, by decide, by decide⟩

/-- Claim C4 (amended): `removed_pct` is always a well-defined rational at
most 100 (the division is clamped by `max(original, 1)`, so it is never
NaN), and it lies in `[0, 100]` whenever the final token count does not
exceed the original one; the code does not clamp below, so the lower bound
needs that hypothesis. -/
theorem stats_pct_bounds (h : Nat → String → Nat) (b r : Nat) (cleaned : List String) :
    removedPct h b r cleaned ≤ 100 ∧
      (finalTokens h b r cleaned ≤ originalTokens cleaned → 0 ≤ removedPct h b r cleaned) := by
  unfold removedPct
  have hmpos : (0 : ℚ) < ((max (originalTokens cleaned) 1 : Nat) : ℚ) := by
    have : 0 < max (originalTokens cleaned) 1 :=
      Nat.lt_of_lt_of_le Nat.zero_lt_one (le_max_right _ 1)
    exact_mod_cast this
  constructor
  · have hfnn : (0 : ℚ) ≤ (finalTokens h b r cleaned : ℚ) /
        ((max (originalTokens cleaned) 1 : Nat) : ℚ) :=
      div_nonneg (by positivity) hmpos.le
    linarith
  · intro hle
    have hfm : (finalTokens h b r cleaned : ℚ) ≤
        ((max (originalTokens cleaned) 1 : Nat) : ℚ) := by
      exact_mod_cast le_trans hle (le_max_left _ _)
    have hdle : (finalTokens h b r cleaned : ℚ) /
        ((max (originalTokens cleaned) 1 : Nat) : ℚ) ≤ 1 := (div_le_one hmpos).mpr hfm
    linarith

/-- Witness for C4 on a PII-free document where the final count does not
exceed the original. -/
theorem stats_pct_bounds_witness :
    finalTokens hZero 2 2 ["hello"] ≤ originalTokens ["hello"] ∧
      0 ≤ removedPct hZero 2 2 ["hello"] ∧ removedPct hZero 2 2 ["hello"] ≤ 100 := by
  refine ⟨by decide, ?_, ?_⟩
  · exact (stats_pct_bounds hZero 2 2 ["hello"]).2 (by decide)
  · exact (stats_pct_bounds hZero 2 2 ["hello"]).1

/-- Claim C4 counterexample: for the single post-strip document
`"555-123-4567"` (1 token), PII redaction produces `"[REDACTED]"`, which the
tokenizer splits into 3 tokens, so `final_token_count > original_token_count`
and `removed_pct = -200 < 0` — refuting both `final <= original` and
`removed_pct ∈ [0, 100]`. -/
theorem stats_pct_negative :
    originalTokens ["555-123-4567"] < finalTokens hZero 2 2 ["555-123-4567"] ∧
      removedPct hZero 2 2 ["555-123-4567"] < 0 := by
  constructor
  · decide
  · have ho : originalTokens ["555-123-4567"] = 1 := by decide
    have hf : finalTokens hZero 2 2 ["555-123-4567"] = 3 := by decide
    unfold removedPct
    rw [ho, hf]
    norm_num

/-- Claim C5 (amended): `strip_html` is idempotent on every input containing
no `<` and no `&` character; on such inputs it reduces to whitespace
collapsing plus strip, which is idempotent.  (Full idempotence fails, see the
counterexample.) -/
theorem strip_html_idempotent_on_plain (s : String)
    (hc : ∀ c ∈ s.data, ¬(c = '<' ∨ c = '&')) :
    stripHtml (stripHtml s) = stripHtml s :=
  stripHtml_idem_clean s hc

/-- Witness for C5 on a plain string with repeated whitespace. -/
theorem strip_html_idempotent_on_plain_witness :
    (∀ c ∈ ("a  b cd ").data, ¬(c = '<' ∨ c = '&')) ∧
      stripHtml (stripHtml "a  b cd ") = stripHtml "a  b cd " :=
  ⟨by decide, strip_html_idempotent_on_plain "a  b cd " (by decide)⟩

/-- Claim C5 counterexample: `strip_html` decodes entities *after* removing
markup, so `"&lt;b&gt;x"` strips to `"<b>x"`, and a second strip removes the
now-exposed tag, yielding `"x"` — `strip(strip(x)) ≠ strip(x)`. -/
theorem strip_html_not_idempotent :
    stripHtml "&lt;b&gt;x" = "<b>x" ∧
      stripHtml (stripHtml "&lt;b&gt;x") = "x" ∧
      stripHtml (stripHtml "&lt;b&gt;x") ≠ stripHtml "&lt;b&gt;x" := by
  exact ⟨by decide, by decide, by decide⟩

/-- Claim C6 (confirmed): `remove_pii` on the spec's example replaces both
the email and the phone span with the redaction token, the result has no
residual email or phone match, and no pattern matches anywhere inside the
inserted token itself (so later patterns never re-match inserted text). -/
theorem remove_pii_redacts_email_and_phone :
    removePii "contact a@b.com or 555-123-4567" = "contact [REDACTED] or [REDACTED]" ∧
      findPat emailMatchAt ("contact [REDACTED] or [REDACTED]").data = none ∧
      findPat phoneMatchAt ("contact [REDACTED] or [REDACTED]").data = none ∧
      findPat emailMatchAt redactedL = none ∧
      findPat phoneMatchAt redactedL = none ∧
      findPat cardMatchAt redactedL = none := by
  exact ⟨by decide, by decide, by decide, by decide, by decide, by decide⟩

/-- Claim C7 (confirmed): when the language detector raises (modelled as
`none`), `detect_language` returns `"unknown"`, and any document classified
`"unknown"` is excluded by the default allow-set `{en}`. -/
theorem detect_language_unknown_excluded (det : String → Option String)
    (docs : List String) (t : String) (hdet : det t = none) :
    detectLanguage det t = "unknown" ∧
      (∀ u, detectLanguage det u = "unknown" → u ∉ langFiltered det docs) := by
  constructor
  · simp [detectLanguage, hdet]
  · intro u hu hmem
    have hf := List.mem_filter.mp hmem
    rw [hu] at hf
    have hc := hf.2
    simp [LANGUAGE_FILTER] at hc

/-- Witness for C7 with an always-raising detector. -/
theorem detect_language_unknown_excluded_witness :
    detNone "bonjour" = none ∧
      detectLanguage detNone "bonjour" = "unknown" ∧
      "bonjour" ∉ langFiltered detNone ["bonjour"] :=
  ⟨rfl, (detect_language_unknown_excluded detNone ["bonjour"] "bonjour" rfl).1,
    (detect_language_unknown_excluded detNone ["bonjour"] "bonjour" rfl).2 "bonjour"
      (detect_language_unknown_excluded detNone ["bonjour"] "bonjour" rfl).1⟩

/-- Claim C8 (amended): a line on which the parser fails contributes nothing
and aborts nothing — the loader's result on the sequence with the malformed
line equals its results on the well-formed lines before and after, and the
model is a total function (no exception).  The code does *not* count the
skipped lines; see the counterexample. -/
theorem loader_skips_malformed_line (parse : String → Option JsonVal)
    (pre2 post : List String) (bad : String) (hbad : parse (pyStripStr bad) = none) :
    loadStructLines parse (pre2 ++ bad :: post) =
      loadStructLines parse pre2 ++ loadStructLines parse post := by
  rw [loadStructLines_append]
  congr 1
  rw [show loadStructLines parse (bad :: post) =
      lineDocs parse bad ++ loadStructLines parse post from rfl]
  simp [lineDocs, hbad]

/-- Witness for C8 with the toy parser and a malformed middle line. -/
theorem loader_skips_malformed_line_witness :
    parseToy (pyStripStr "oops") = none ∧
      loadStructLines parseToy ([quotedA] ++ "oops" :: [quotedB]) =
        loadStructLines parseToy [quotedA] ++ loadStructLines parseToy [quotedB] :=
  ⟨rfl, loader_skips_malformed_line parseToy [quotedA] [quotedB] "oops" rfl⟩

/-- Claim C8 counterexample to the "counted" part: the loader's entire result
is unchanged when the malformed line is deleted from the input — the
malformed line leaves no trace whatsoever (the source `except` clause is a
bare `continue`; nothing is counted or reported). -/
theorem loader_malformed_line_not_counted :
    parseToy (pyStripStr "oops") = none ∧
      loadStructLines parseToy [quotedA, "oops", quotedB] =
        loadStructLines parseToy [quotedA, quotedB] ∧
      loadStructLines parseToy [quotedA, "oops", quotedB] = [aStr51, bStr51] := by
  exact ⟨rfl, by decide, by decide⟩

/-- Claim C9 (confirmed): on a document whose token sequence has at least 4
tokens and no repeated 4-gram, `remove_repetitive_ngrams` drops nothing: the
output is exactly the input tokens re-joined with single spaces. -/
theorem collapse_identity_on_repetition_free (text : String)
    (hlen : 4 ≤ (wordTokenize text).length)
    (hnd : (win 4 (wordTokenize text)).Nodup) :
    removeRepetitiveNgrams text 4 = joinSpace (wordTokenize text) := by
  simp only [removeRepetitiveNgrams]
  rw [if_neg (by intro h0; rw [h0] at hlen; simp at hlen)]
  rw [collapse_core_id 4 (by omega) _ hlen hnd]

/-- Witness for C9 on a repetition-free 4-token document. -/
theorem collapse_identity_on_repetition_free_witness :
    4 ≤ (wordTokenize "a b c d").length ∧ (win 4 (wordTokenize "a b c d")).Nodup ∧
      removeRepetitiveNgrams "a b c d" 4 = joinSpace (wordTokenize "a b c d") :=
  ⟨by decide, by decide, collapse_identity_on_repetition_free "a b c d" (by decide) (by decide)⟩

/-- Claim C10 (confirmed): for any suffix other than `.json`/`.jsonl` the
loader returns exactly one document holding the whole file contents (no
threshold — an empty file yields one empty document), while structured
loading only ever emits strings strictly longer than 50 characters. -/
theorem load_file_flat_and_threshold (parse : String → Option JsonVal)
    (sfx content : String) (lines : List String)
    (hs : ¬(sfx = ".json" ∨ sfx = ".jsonl")) :
    loadFile parse sfx content = [content] ∧
      ∀ d ∈ loadStructLines parse lines, 50 < d.length := by
  constructor
  · unfold loadFile
    rw [if_neg hs]
  · intro d hd
    exact loadStructLines_len parse lines d hd

/-- Witness for C10: an empty flat `.txt` file yields one empty document, and
the structured path on a sample line only emits long strings. -/
theorem load_file_flat_and_threshold_witness :
    (¬(".txt" = ".json" ∨ ".txt" = ".jsonl")) ∧
      loadFile parseToy ".txt" "" = [""] ∧
      ∀ d ∈ loadStructLines parseToy [quotedA], 50 < d.length :=
  ⟨by decide, (load_file_flat_and_threshold parseToy ".txt" "" [quotedA] (by decide)).1,
    (load_file_flat_and_threshold parseToy ".txt" "" [quotedA] (by decide)).2⟩
